import Mathlib

set_option maxHeartbeats 1000000
set_option maxRecDepth 100000

namespace PyMtl

/-! Shallow embedding of the pymtl cycle-level simulation kernel described by
the repository's specification.  The repository's `src/` holds only test
files (`SimulationTool_bug_test.py`, `RegisterFile_v_test.py`,
`parcv1_lw.py`); the kernel itself (connection graph builder, combinational
scheduler, sequential updater, vector-driven simulator) is not present, so
the definitions below are modelled from the specification's words, and the
test files fix the concrete scenarios and expected values. -/

/-! ## Signals, slices and bit ranges (spec §3) -/

/-- Contiguous bit-range `[lo, hi)` of a signal, the `Slice` of spec §3
without its backing-signal id. -/
structure BitRange where
  lo : Nat
  hi : Nat
deriving DecidableEq, Repr

/-- Two bit ranges `[lo, hi)` overlap when they share at least one bit. -/
def BitRange.overlaps (r s : BitRange) : Bool :=
  decide (max r.lo s.lo < min r.hi s.hi)

/-- Membership of an elementary bit in a bit range. -/
def BitRange.containsBit (r : BitRange) (bit : Nat) : Bool :=
  decide (r.lo ≤ bit) && decide (bit < r.hi)

theorem BitRange.overlaps_comm (r s : BitRange) : r.overlaps s = s.overlaps r := by
  simp [BitRange.overlaps, Nat.max_comm, Nat.min_comm]

theorem BitRange.overlaps_iff_exists_bit (r s : BitRange) :
    r.overlaps s = true ↔ ∃ bit, r.containsBit bit = true ∧ s.containsBit bit = true := by
  constructor
  · intro h
    simp only [BitRange.overlaps, decide_eq_true_eq] at h
    exact ⟨max r.lo s.lo, by simp [BitRange.containsBit]; omega, by simp [BitRange.containsBit]; omega⟩
  · rintro ⟨bit, hr, hs⟩
    simp only [BitRange.containsBit, Bool.and_eq_true, decide_eq_true_eq] at hr hs
    simp only [BitRange.overlaps, decide_eq_true_eq]
    omega

/-- Sensitivity handle of a consumer: a slice `(signal id, bit range)` of the
backing signal, as in spec §3 (`Slice`). -/
structure SliceSens where
  sig : Nat
  range : BitRange
deriving DecidableEq, Repr

/-! ## Fan-out index (spec §4.1, "Fan-out") -/

/-- Modelled from the spec: the fan-out index of the Connection Graph Builder
(§4.1) records, per producer bit-range, the set of consumer blocks whose
sensitivity overlaps that range; a write to signal `sig` over range `w`
schedules exactly the consumers registered against an overlapping range of
the same signal.  `consumers` pairs a consumer block id with its sensitivity
slice. -/
def scheduledConsumers (consumers : List (Nat × SliceSens)) (sig : Nat) (w : BitRange) :
    List Nat :=
  (consumers.filter (fun c => c.2.sig == sig && c.2.range.overlaps w)).map (fun c => c.1)

theorem mem_scheduledConsumers (consumers : List (Nat × SliceSens)) (sig : Nat)
    (w : BitRange) (c : Nat) :
    c ∈ scheduledConsumers consumers sig w ↔
      ∃ sens : SliceSens, (c, sens) ∈ consumers ∧ sens.sig = sig ∧
        sens.range.overlaps w = true := by
  simp only [scheduledConsumers, List.mem_map, List.mem_filter, Bool.and_eq_true, beq_iff_eq]
  constructor
  · rintro ⟨⟨c0, sens⟩, ⟨hmem, hsig, hov⟩, rfl⟩
    exact ⟨sens, hmem, hsig, hov⟩
  · rintro ⟨sens, hmem, hsig, hov⟩
    exact ⟨(c, sens), ⟨hmem, hsig, hov⟩, rfl⟩

/-! ## Connection graph builder: conflicting drivers (spec §4.1, §7) -/

/-- Source endpoint of a Connection: either a constant value or a slice of a
signal (a full signal is the slice covering its whole width). -/
inductive Src where
  | const : Nat → Src
  | slice : Nat → BitRange → Src
deriving DecidableEq, Repr

/-- Directed Connection writing the destination bit range `destRange` of
signal `destSig` from `src` (spec §3, `Connection`). -/
structure Conn where
  src : Src
  destSig : Nat
  destRange : BitRange
deriving DecidableEq, Repr

/-- Structural build-time errors of the Connection Graph Builder (spec §7). -/
inductive BuildError where
  | ConflictingDriverError
  | CombinationalLoopError
deriving DecidableEq, Repr

/-- Two connections conflict when they write overlapping bit ranges of the
same destination signal. -/
def connConflict (c d : Conn) : Bool :=
  c.destSig == d.destSig && c.destRange.overlaps d.destRange

/-- Modelled from the spec: the builder's overlap check (§4.1, "Overlap
rule") — scan the declared connections for two that write overlapping
ranges of the same destination signal. -/
def hasConflict : List Conn → Bool
  | [] => false
  | c :: rest => rest.any (fun d => connConflict c d) || hasConflict rest

/-- Index of the connection driving elementary bit `bit` of signal `sig`,
per declared connection (spec §4.1, "Fan-in composition": the builder
records, per elementary bit, its producer). -/
def bitDrivers (cs : List Conn) (sig bit : Nat) : List Nat :=
  (List.range cs.length).filter (fun i =>
    match cs[i]? with
    | some c => c.destSig == sig && c.destRange.containsBit bit
    | none => false)

/-- Modelled from the spec: the Connection Graph Builder (§4.1) fails at
build time with `ConflictingDriverError` when two connections write
overlapping destination bit-ranges, and otherwise returns the per-bit
producer index. -/
def buildConnGraph (cs : List Conn) : Except BuildError (Nat → Nat → List Nat) :=
  if hasConflict cs then .error .ConflictingDriverError
  else .ok (fun sig bit => bitDrivers cs sig bit)

theorem hasConflict_eq_false_iff_pairwise (cs : List Conn) :
    hasConflict cs = false ↔ cs.Pairwise (fun c d => connConflict c d = false) := by
  induction cs with
  | nil => simp [hasConflict]
  | cons c rest ih =>
    simp only [hasConflict, Bool.or_eq_false_iff, List.pairwise_cons, ih, List.any_eq_false]
    constructor
    · rintro ⟨h1, h2⟩
      exact ⟨fun d hd => by simpa using h1 d hd, h2⟩
    · rintro ⟨h1, h2⟩
      exact ⟨fun d hd => by simpa using h1 d hd, h2⟩

theorem hasConflict_eq_true_iff (cs : List Conn) :
    hasConflict cs = true ↔
      ∃ i j, ∃ hi : i < cs.length, ∃ hj : j < cs.length, i < j ∧
        connConflict (cs.get ⟨i, hi⟩) (cs.get ⟨j, hj⟩) = true := by
  constructor
  · intro h
    have hnp : ¬ cs.Pairwise (fun c d => connConflict c d = false) := by
      rw [← hasConflict_eq_false_iff_pairwise]
      simp [h]
    rw [List.pairwise_iff_get] at hnp
    push_neg at hnp
    obtain ⟨i, j, hij, hR⟩ := hnp
    exact ⟨i, j, i.isLt, j.isLt, hij, by simpa using hR⟩
  · rintro ⟨i, j, hi, hj, hij, hcon⟩
    by_contra h
    have hf : hasConflict cs = false := by
      cases hb : hasConflict cs with
      | false => rfl
      | true => exact absurd hb h
    rw [hasConflict_eq_false_iff_pairwise, List.pairwise_iff_get] at hf
    have := hf ⟨i, hi⟩ ⟨j, hj⟩ hij
    rw [this] at hcon
    exact Bool.false_ne_true hcon

theorem mem_bitDrivers (cs : List Conn) (sig bit i : Nat) :
    i ∈ bitDrivers cs sig bit ↔
      ∃ hi : i < cs.length, (cs.get ⟨i, hi⟩).destSig = sig ∧
        (cs.get ⟨i, hi⟩).destRange.containsBit bit = true := by
  simp only [bitDrivers, List.mem_filter, List.mem_range]
  constructor
  · rintro ⟨hi, hp⟩
    rw [List.getElem?_eq_getElem hi] at hp
    simp only [Bool.and_eq_true, beq_iff_eq] at hp
    exact ⟨hi, hp.1, hp.2⟩
  · rintro ⟨hi, h1, h2⟩
    refine ⟨hi, ?_⟩
    rw [List.getElem?_eq_getElem hi]
    simp only [Bool.and_eq_true, beq_iff_eq]
    exact ⟨h1, h2⟩

/-- Under pairwise-disjoint destination writes, each elementary bit has at
most one declared producer. -/
theorem bitDrivers_length_le_one (cs : List Conn)
    (hdisj : hasConflict cs = false) (sig bit : Nat) :
    (bitDrivers cs sig bit).length ≤ 1 := by
  rw [hasConflict_eq_false_iff_pairwise, List.pairwise_iff_get] at hdisj
  by_contra hlen
  push_neg at hlen
  set l := bitDrivers cs sig bit with hl
  have hnd : l.Nodup := List.Nodup.filter _ (List.nodup_range _)
  have h0 : 0 < l.length := by omega
  have h1 : 1 < l.length := hlen
  have hij : l.get ⟨0, h0⟩ ≠ l.get ⟨1, h1⟩ := by
    intro h
    have h01 := congrArg Fin.val ((List.nodup_iff_injective_get.mp hnd) h)
    simp at h01
  have hm0 : l.get ⟨0, h0⟩ ∈ bitDrivers cs sig bit := hl ▸ l.get_mem 0 h0
  have hm1 : l.get ⟨1, h1⟩ ∈ bitDrivers cs sig bit := hl ▸ l.get_mem 1 h1
  rw [mem_bitDrivers] at hm0 hm1
  obtain ⟨hi0, hs0, hb0⟩ := hm0
  obtain ⟨hi1, hs1, hb1⟩ := hm1
  have hconf : ∀ a b, ∀ ha : a < cs.length, ∀ hb : b < cs.length, a < b →
      connConflict (cs.get ⟨a, ha⟩) (cs.get ⟨b, hb⟩) = false := by
    intro a b ha hb hab
    exact hdisj ⟨a, ha⟩ ⟨b, hb⟩ hab
  have hcc : ∀ a b, ∀ ha : a < cs.length, ∀ hb : b < cs.length,
      (cs.get ⟨a, ha⟩).destSig = sig → (cs.get ⟨b, hb⟩).destSig = sig →
      (cs.get ⟨a, ha⟩).destRange.containsBit bit = true →
      (cs.get ⟨b, hb⟩).destRange.containsBit bit = true →
      a < b → False := by
    intro a b ha hb hsa hsb hba hbb hab
    have := hconf a b ha hb hab
    simp only [connConflict, hsa, hsb, beq_self_eq_true, Bool.true_and] at this
    have hov : (cs.get ⟨a, ha⟩).destRange.overlaps (cs.get ⟨b, hb⟩).destRange = true :=
      (BitRange.overlaps_iff_exists_bit _ _).mpr ⟨bit, hba, hbb⟩
    rw [hov] at this
    simp at this
  rcases Nat.lt_or_ge (l.get ⟨0, h0⟩) (l.get ⟨1, h1⟩) with hlt | hge
  · exact hcc _ _ hi0 hi1 hs0 hs1 hb0 hb1 hlt
  · have hlt : l.get ⟨1, h1⟩ < l.get ⟨0, h0⟩ := by
      rcases Nat.lt_or_eq_of_le hge with h | h
      · exact h
      · exact absurd h.symm hij
    exact hcc _ _ hi1 hi0 hs1 hs0 hb1 hb0 hlt

/-- C1: a step that writes only sub-range A of a signal schedules exactly the
combinational consumers whose sensitivity overlaps A, leaves every consumer
sensitive only to a disjoint sub-range B unscheduled, and in particular a
producer writing `X[0:2]` wakes a consumer of `X[0]` and does not wake a
consumer of `X[2]` (the `test_simple` scenario of
`SimulationTool_bug_test.py`). -/
theorem fanout_schedules_exactly_overlapping_consumers :
    (∀ (consumers : List (Nat × SliceSens)) (sig : Nat) (A : BitRange) (c : Nat),
        c ∈ scheduledConsumers consumers sig A ↔
          ∃ sens : SliceSens, (c, sens) ∈ consumers ∧ sens.sig = sig ∧
            sens.range.overlaps A = true)
    ∧ (∀ (consumers : List (Nat × SliceSens)) (sig : Nat) (A B : BitRange) (c : Nat),
        (∀ sens : SliceSens, (c, sens) ∈ consumers → sens.sig = sig ∧ sens.range = B) →
        B.overlaps A = false →
        c ∉ scheduledConsumers consumers sig A)
    ∧ scheduledConsumers [(10, ⟨0, ⟨0, 1⟩⟩), (20, ⟨0, ⟨2, 3⟩⟩)] 0 ⟨0, 2⟩ = [10] := by
  refine ⟨mem_scheduledConsumers, ?_, by decide⟩
  intro consumers sig A B c honly hdisj hmem
  rw [mem_scheduledConsumers] at hmem
  obtain ⟨sens, hin, _, hov⟩ := hmem
  obtain ⟨_, hrange⟩ := honly sens hin
  rw [hrange, hdisj] at hov
  exact Bool.false_ne_true hov

/-- C1 witness: in the concrete fan-out index with a single consumer
sensitive only to `X[2:3]`, a write of `X[0:2]` does not schedule it. -/
theorem fanout_schedules_exactly_overlapping_consumers_witness :
    20 ∉ scheduledConsumers [(20, ⟨0, ⟨2, 3⟩⟩)] 0 ⟨0, 2⟩ :=
  fanout_schedules_exactly_overlapping_consumers.2.1 [(20, ⟨0, ⟨2, 3⟩⟩)] 0 ⟨0, 2⟩ ⟨2, 3⟩ 20
    (fun sens h => by
      simp only [List.mem_singleton, Prod.mk.injEq] at h
      simp [h.2])
    (by decide)

/-- C4: building the connection graph fails with `ConflictingDriverError`
exactly when two connections write overlapping bit-ranges of the same
destination signal; when all written ranges are pairwise disjoint the build
succeeds and records at most one producer per elementary bit, exactly one
for every driven bit. -/
theorem build_conflicting_driver_iff_overlap :
    (∀ cs : List Conn,
        buildConnGraph cs = .error .ConflictingDriverError ↔
          ∃ i, ∃ hi : i < cs.length, ∃ j, ∃ hj : j < cs.length, i < j ∧
            (cs.get ⟨i, hi⟩).destSig = (cs.get ⟨j, hj⟩).destSig ∧
            (cs.get ⟨i, hi⟩).destRange.overlaps (cs.get ⟨j, hj⟩).destRange = true)
    ∧ (∀ cs : List Conn,
        (∀ i, ∀ hi : i < cs.length, ∀ j, ∀ hj : j < cs.length, i < j →
          (cs.get ⟨i, hi⟩).destSig = (cs.get ⟨j, hj⟩).destSig →
          (cs.get ⟨i, hi⟩).destRange.overlaps (cs.get ⟨j, hj⟩).destRange = false) →
        ∃ g, buildConnGraph cs = .ok g ∧
          ∀ sig bit, (g sig bit).length ≤ 1 ∧
            (∀ i, i ∈ g sig bit → (g sig bit).length = 1)) := by
  have hconn : ∀ c d : Conn, connConflict c d = true ↔
      c.destSig = d.destSig ∧ c.destRange.overlaps d.destRange = true := by
    intro c d
    simp [connConflict]
  constructor
  · intro cs
    have hbuild : buildConnGraph cs = .error .ConflictingDriverError ↔ hasConflict cs = true := by
      unfold buildConnGraph
      by_cases h : hasConflict cs <;> simp [h]
    rw [hbuild, hasConflict_eq_true_iff]
    constructor
    · rintro ⟨i, j, hi, hj, hij, hc⟩
      exact ⟨i, hi, j, hj, hij, (hconn _ _).mp hc⟩
    · rintro ⟨i, hi, j, hj, hij, hs, ho⟩
      exact ⟨i, j, hi, hj, hij, (hconn _ _).mpr ⟨hs, ho⟩⟩
  · intro cs hdisj
    have hfalse : hasConflict cs = false := by
      rw [hasConflict_eq_false_iff_pairwise, List.pairwise_iff_get]
      intro a b hab
      by_cases hsig : (cs.get a).destSig = (cs.get b).destSig
      · have := hdisj a.1 a.isLt b.1 b.isLt hab hsig
        simp only [connConflict, hsig, beq_self_eq_true, Bool.true_and]
        exact this
      · simp only [connConflict, Bool.and_eq_false_iff]
        left
        simpa using hsig
    refine ⟨fun sig bit => bitDrivers cs sig bit, ?_, ?_⟩
    · unfold buildConnGraph
      rw [hfalse]
      simp
    · intro sig bit
      refine ⟨bitDrivers_length_le_one cs hfalse sig bit, ?_⟩
      intro i hmem
      have hle := bitDrivers_length_le_one cs hfalse sig bit
      have hpos : 0 < (bitDrivers cs sig bit).length := List.length_pos_of_mem hmem
      show (bitDrivers cs sig bit).length = 1
      omega

/-- C4 witness: the `Top()` wiring of `test_simple` (`top.a → middle.a[0:2]`,
constant 0 → `middle.a[2:4]`) is pairwise disjoint, so the build succeeds
with one producer per driven bit. -/
theorem build_conflicting_driver_iff_overlap_witness :
    ∃ g, buildConnGraph [⟨.slice 1 ⟨0, 2⟩, 0, ⟨0, 2⟩⟩, ⟨.const 0, 0, ⟨2, 4⟩⟩] = .ok g ∧
      ∀ sig bit, (g sig bit).length ≤ 1 ∧
        (∀ i, i ∈ g sig bit → (g sig bit).length = 1) :=
  build_conflicting_driver_iff_overlap.2
    [⟨.slice 1 ⟨0, 2⟩, 0, ⟨0, 2⟩⟩, ⟨.const 0, 0, ⟨2, 4⟩⟩] (by decide)

/-! ## Signal value composition from slice connections (spec §3, §4.1) -/

/-- Value currently presented by a connection source under signal
environment `env`: a constant presents itself, a slice is a masked,
shifted view into its backing signal (spec §3, `Slice`). -/
def Src.val (env : Nat → Nat) : Src → Nat
  | .const c => c
  | .slice sigid r => (env sigid >>> r.lo) % 2 ^ (r.hi - r.lo)

/-- Contribution of one connection to its destination signal: the source
value masked to the destination range's width and shifted into place
(spec §9: explicit mask/shift semantics of slices). -/
def Conn.contrib (c : Conn) (env : Nat → Nat) : Nat :=
  (c.src.val env % 2 ^ (c.destRange.hi - c.destRange.lo)) <<< c.destRange.lo

/-- Modelled from the spec: the settled value of a destination signal
assembled from its slice-level connections (spec §4.1, "Fan-in
composition": a signal may be fully assembled from several slice-level
connections, each driving its own bit range). -/
def composedValue (cs : List Conn) (env : Nat → Nat) (sig : Nat) : Nat :=
  cs.foldr (fun c acc => if c.destSig == sig then c.contrib env ||| acc else acc) 0

theorem testBit_composedValue (cs : List Conn) (env : Nat → Nat) (sig k : Nat) :
    (composedValue cs env sig).testBit k =
      cs.any (fun c => c.destSig == sig && (c.contrib env).testBit k) := by
  induction cs with
  | nil => simp [composedValue]
  | cons c rest ih =>
    simp only [composedValue, List.foldr_cons, List.any_cons]
    by_cases h : c.destSig = sig
    · simp only [h, beq_self_eq_true, if_true, Bool.true_and]
      rw [Nat.testBit_lor]
      rw [composedValue] at ih
      rw [ih]
    · have hb : (c.destSig == sig) = false := by simpa using h
      simp only [hb, if_false, Bool.false_and, Bool.false_or]
      rw [composedValue] at ih
      exact ih

theorem contrib_testBit_outside (c : Conn) (env : Nat → Nat) (k : Nat)
    (h : c.destRange.containsBit k = false) : (c.contrib env).testBit k = false := by
  unfold Conn.contrib
  rw [Nat.testBit_shiftLeft]
  simp only [BitRange.containsBit, Bool.and_eq_false_iff, decide_eq_false_iff_not,
    Nat.not_le, Nat.not_lt] at h
  rcases h with h | h
  · simp [Nat.not_le.mpr h]
  · rw [Nat.testBit_mod_two_pow]
    have : ¬ (k - c.destRange.lo < c.destRange.hi - c.destRange.lo) := by omega
    simp [this]

theorem contrib_testBit_inside (c : Conn) (env : Nat → Nat) (k : Nat)
    (h1 : c.destRange.lo ≤ k) (h2 : k < c.destRange.hi) :
    (c.contrib env).testBit k = (c.src.val env).testBit (k - c.destRange.lo) := by
  unfold Conn.contrib
  rw [Nat.testBit_shiftLeft, Nat.testBit_mod_two_pow]
  have hw : k - c.destRange.lo < c.destRange.hi - c.destRange.lo := by omega
  simp [h1, hw]

/-- Under a conflict-free connection list, no elementary bit of a signal is
driven by two distinct connection positions. -/
theorem conflictFree_not_two_drivers (cs : List Conn) (hc : hasConflict cs = false)
    {i j : Nat} (hi : i < cs.length) (hj : j < cs.length) (hij : i ≠ j)
    (hsig : (cs.get ⟨i, hi⟩).destSig = (cs.get ⟨j, hj⟩).destSig)
    {bit : Nat} (hbi : (cs.get ⟨i, hi⟩).destRange.containsBit bit = true)
    (hbj : (cs.get ⟨j, hj⟩).destRange.containsBit bit = true) : False := by
  rw [hasConflict_eq_false_iff_pairwise, List.pairwise_iff_get] at hc
  have key : ∀ a b, ∀ ha : a < cs.length, ∀ hb : b < cs.length, a < b →
      (cs.get ⟨a, ha⟩).destSig = (cs.get ⟨b, hb⟩).destSig →
      (cs.get ⟨a, ha⟩).destRange.containsBit bit = true →
      (cs.get ⟨b, hb⟩).destRange.containsBit bit = true → False := by
    intro a b ha hb hab hs hba hbb
    have hcf := hc ⟨a, ha⟩ ⟨b, hb⟩ hab
    have hov : (cs.get ⟨a, ha⟩).destRange.overlaps (cs.get ⟨b, hb⟩).destRange = true :=
      (BitRange.overlaps_iff_exists_bit _ _).mpr ⟨bit, hba, hbb⟩
    have htrue : connConflict (cs.get ⟨a, ha⟩) (cs.get ⟨b, hb⟩) = true := by
      unfold connConflict
      rw [Bool.and_eq_true, beq_iff_eq]
      exact ⟨hs, hov⟩
    rw [hcf] at htrue
    simp at htrue
  rcases Nat.lt_or_ge i j with h | h
  · exact key i j hi hj h hsig hbi hbj
  · rcases Nat.lt_or_eq_of_le h with h2 | h2
    · exact key j i hj hi h2 hsig.symm hbj hbi
    · exact hij h2.symm

/-- When the connection list is conflict-free, the composed value of a
signal at a bit inside some connection's destination range is exactly that
connection's contribution at that bit. -/
theorem composed_testBit_of_driver (cs : List Conn) (env : Nat → Nat) (sig : Nat)
    (d : Conn) (hc : hasConflict cs = false) (hd : d ∈ cs) (hsig : d.destSig = sig)
    {k : Nat} (hk : d.destRange.containsBit k = true) :
    (composedValue cs env sig).testBit k = (d.contrib env).testBit k := by
  rw [testBit_composedValue]
  cases hdb : (d.contrib env).testBit k with
  | true => exact List.any_eq_true.mpr ⟨d, hd, by simp [hsig, hdb]⟩
  | false =>
    rw [List.any_eq_false]
    intro c hcmem
    by_cases hcs : c.destSig = sig
    · by_cases hck : c.destRange.containsBit k = true
      · obtain ⟨⟨i, hi⟩, hci⟩ := List.mem_iff_get.mp hcmem
        obtain ⟨⟨j, hj⟩, hdj⟩ := List.mem_iff_get.mp hd
        by_cases hij : i = j
        · have hfin : (⟨i, hi⟩ : Fin cs.length) = ⟨j, hj⟩ := Fin.ext hij
          have hcd : c = d := by rw [← hci, ← hdj, hfin]
          simp [hcd, hdb]
        · exact (conflictFree_not_two_drivers cs hc hi hj hij
            (by rw [hci, hdj, hcs, hsig]) (by rw [hci]; exact hck)
            (by rw [hdj]; exact hk)).elim
      · have := contrib_testBit_outside c env k (by simpa using hck)
        simp [this]
    · simp [hcs]

/-- Connection list of `middle.a` in `test_simple` of
`SimulationTool_bug_test.py`: signal 0 is `middle.a` (4 bits), signal 1 is
`top.a` (2 bits); `top.a` drives `middle.a[0:2]` and constant 0 drives
`middle.a[2:4]`. -/
def middleAConns : List Conn :=
  [⟨.slice 1 ⟨0, 2⟩, 0, ⟨0, 2⟩⟩, ⟨.const 0, 0, ⟨2, 4⟩⟩]

/-- C10: a constant value may be connected as the source of a bit-slice
destination of a multi-bit signal; under pairwise-disjoint drivers those
destination bits hold the constant in every step, while bits driven by a
slice connection follow their own source — concretely, in the `Top()`
wiring of `test_simple` bits `[2:4)` of `middle.a` are always 0 and bits
`[0:2)` follow `top.a`. -/
theorem const_to_slice_connection_drives_bits :
    (∀ (cs : List Conn) (env : Nat → Nat) (sig cval : Nat) (r : BitRange) (k : Nat),
        hasConflict cs = false → (⟨.const cval, sig, r⟩ : Conn) ∈ cs →
        r.lo ≤ k → k < r.hi →
        (composedValue cs env sig).testBit k = cval.testBit (k - r.lo))
    ∧ (∀ (cs : List Conn) (env : Nat → Nat) (sig srcSig : Nat) (sr r : BitRange) (k : Nat),
        hasConflict cs = false → (⟨.slice srcSig sr, sig, r⟩ : Conn) ∈ cs →
        r.lo ≤ k → k < r.hi → k - r.lo < sr.hi - sr.lo →
        (composedValue cs env sig).testBit k = (env srcSig).testBit (sr.lo + (k - r.lo)))
    ∧ (∀ env : Nat → Nat,
        (composedValue middleAConns env 0).testBit 2 = false ∧
        (composedValue middleAConns env 0).testBit 3 = false ∧
        composedValue middleAConns env 0 = env 1 % 4) := by
  refine ⟨?_, ?_, ?_⟩
  · intro cs env sig cval r k hc hmem hlo hhi
    have hk : (BitRange.containsBit r k) = true := by
      simp [BitRange.containsBit, hlo, hhi]
    have := composed_testBit_of_driver cs env sig ⟨.const cval, sig, r⟩ hc hmem rfl hk
    rw [this, contrib_testBit_inside _ env k hlo hhi]
    show (Src.val env (.const cval)).testBit (k - r.lo) = _
    rfl
  · intro cs env sig srcSig sr r k hc hmem hlo hhi hw
    have hk : (BitRange.containsBit r k) = true := by
      simp [BitRange.containsBit, hlo, hhi]
    have := composed_testBit_of_driver cs env sig ⟨.slice srcSig sr, sig, r⟩ hc hmem rfl hk
    rw [this, contrib_testBit_inside _ env k hlo hhi]
    show (Src.val env (.slice srcSig sr)).testBit (k - r.lo) = _
    unfold Src.val
    rw [Nat.testBit_mod_two_pow, Nat.testBit_shiftRight]
    simp [hw]
  · intro env
    have hval : composedValue middleAConns env 0 = env 1 % 4 := by
      show ((env 1 >>> 0) % 2 ^ 2 % 2 ^ 2) <<< 0 ||| ((0 % 2 ^ 2) <<< 2 ||| 0) = env 1 % 4
      simp [Nat.shiftRight_zero, Nat.shiftLeft_zero, Nat.zero_shiftLeft,
        Nat.mod_mod_of_dvd]
    have hlt : env 1 % 4 < 4 := Nat.mod_lt _ (by norm_num)
    refine ⟨?_, ?_, hval⟩
    · rw [hval]
      exact Nat.testBit_eq_false_of_lt (lt_of_lt_of_le hlt (by norm_num))
    · rw [hval]
      exact Nat.testBit_eq_false_of_lt (lt_of_lt_of_le hlt (by norm_num))

/-- C10 witness: with every source signal reading 5, bit 2 of the composed
`middle.a` equals bit 0 of the constant 0. -/
theorem const_to_slice_connection_drives_bits_witness :
    (composedValue middleAConns (fun _ => 5) 0).testBit 2 = Nat.testBit 0 0 :=
  const_to_slice_connection_drives_bits.1 middleAConns (fun _ => 5) 0 0 ⟨2, 4⟩ 2
    (by decide) (by decide) (by decide) (by decide)

/-! ## Register file with edge-triggered commit (spec §4.3; `RegisterFile_v_test.py`) -/

/-- Test vector of `test_regfile_1R1W` in `RegisterFile_v_test.py`: read
address, expected read data, write enable, write address, write data. -/
structure RFVec where
  rd_addr : Nat
  rd_data : Nat
  wr_en : Nat
  wr_addr : Nat
  wr_data : Nat
deriving DecidableEq, Repr

/-- Modelled from the spec: the combinational read port of the register
file (absent from `src/`, only its test is present) — the read data is the
settled combinational value computed from the pre-edge storage (spec §4.3
and §4.4: assertions observe the old register state). -/
def rfReadOut (regs : Nat → Nat) (v : RFVec) : Nat :=
  regs v.rd_addr

/-- Modelled from the spec: the Sequential Updater's clock-edge commit of
the register file (spec §4.3): when `wr_en` is nonzero the entry at
`wr_addr` takes `wr_data`; all other entries, and every entry when
`wr_en = 0`, retain their previous value. -/
def rfStep (regs : Nat → Nat) (v : RFVec) : Nat → Nat :=
  fun a => if v.wr_en ≠ 0 ∧ a = v.wr_addr then v.wr_data else regs a

/-- Storage state of the register file after running a vector list, one
clock edge per vector (spec §4.4). -/
def rfRunState (regs : Nat → Nat) : List RFVec → (Nat → Nat)
  | [] => regs
  | v :: rest => rfRunState (rfStep regs v) rest

/-- Modelled from the spec: `TestVectorSimulator.run_test` applied to the
register file — per vector, apply inputs, settle (the read port sees the
pre-edge storage), check the expected read data, then commit the edge. -/
def rfRunChecks (regs : Nat → Nat) : List RFVec → Bool
  | [] => true
  | v :: rest => (rfReadOut regs v == v.rd_data) && rfRunChecks (rfStep regs v) rest

/-- Vectors of `test_regfile_1R1W` in `RegisterFile_v_test.py`. -/
def regfileVectors : List RFVec :=
  [⟨0, 0x0000, 0, 0, 0x0000⟩,
   ⟨1, 0x0000, 0, 1, 0x0008⟩,
   ⟨3, 0x0000, 1, 2, 0x0005⟩,
   ⟨2, 0x0005, 0, 2, 0x0000⟩,
   ⟨3, 0x0000, 1, 3, 0x0007⟩,
   ⟨3, 0x0007, 1, 7, 0x0090⟩,
   ⟨7, 0x0090, 1, 3, 0x0007⟩,
   ⟨0, 0x0000, 1, 0, 0x0FFF⟩,
   ⟨0, 0x0FFF, 1, 4, 0x0FFF⟩,
   ⟨0, 0x0FFF, 0, 4, 0x0BBB⟩,
   ⟨0, 0x0FFF, 0, 4, 0x0FFF⟩,
   ⟨4, 0x0FFF, 0, 0, 0x0000⟩]

/-- C5: a read of a register's output during the same step that wrote its
next-value shadow returns the pre-edge (old) value even when read and
write addresses coincide, a read in the following step returns the newly
committed value, and the full `test_regfile_1R1W` vector sequence —
including the write-then-read of address 2 yielding 0x0005 and the
same-address simultaneous write/read yielding the old value — checks out
from all-zero initial storage. -/
theorem register_read_pre_edge_then_committed :
    (∀ (regs : Nat → Nat) (v : RFVec), v.wr_en ≠ 0 → v.rd_addr = v.wr_addr →
        rfReadOut regs v = regs v.wr_addr)
    ∧ (∀ (regs : Nat → Nat) (v w : RFVec), v.wr_en ≠ 0 → w.rd_addr = v.wr_addr →
        rfReadOut (rfStep regs v) w = v.wr_data)
    ∧ rfRunChecks (fun _ => 0) regfileVectors = true := by
  refine ⟨?_, ?_, ?_⟩
  · intro regs v _ h
    simp [rfReadOut, h]
  · intro regs v w hen h
    simp [rfReadOut, rfStep, h, hen]
  · decide

/-- C5 witness: writing 7 to address 3 while reading address 3 commits at
the edge, so the very next step's read of address 3 returns 7. -/
theorem register_read_pre_edge_then_committed_witness :
    rfReadOut (rfStep (fun _ => 0) ⟨3, 0, 1, 3, 7⟩) ⟨3, 7, 1, 7, 0x0090⟩ = 7 :=
  register_read_pre_edge_then_committed.2.1 (fun _ => 0) ⟨3, 0, 1, 3, 7⟩
    ⟨3, 7, 1, 7, 0x0090⟩ (by decide) rfl

/-- C9: in every step with `wr_en = 0` no storage entry changes, and over
any run whose vectors all have `wr_en = 0` every address reads back its
original value regardless of the `wr_addr`/`wr_data` presented. -/
theorem regfile_no_write_is_frame :
    (∀ (regs : Nat → Nat) (v : RFVec), v.wr_en = 0 → ∀ a, rfStep regs v a = regs a)
    ∧ (∀ (regs : Nat → Nat) (vs : List RFVec), (∀ v ∈ vs, v.wr_en = 0) →
        ∀ a, rfRunState regs vs a = regs a) := by
  have h1 : ∀ (regs : Nat → Nat) (v : RFVec), v.wr_en = 0 → ∀ a, rfStep regs v a = regs a := by
    intro regs v h a
    simp [rfStep, h]
  refine ⟨h1, ?_⟩
  intro regs vs
  induction vs generalizing regs with
  | nil => intro _ a; rfl
  | cons v rest ih =>
    intro h a
    have hv := h v (List.mem_cons_self v rest)
    show rfRunState (rfStep regs v) rest a = regs a
    rw [ih (rfStep regs v) (fun w hw => h w (List.mem_cons_of_mem _ hw)) a]
    exact h1 regs v hv a

/-- C9 witness: two vectors with `wr_en = 0` (and nonzero `wr_data`
presented) leave address 4 of the identity-valued storage unchanged. -/
theorem regfile_no_write_is_frame_witness :
    rfRunState (fun a => a) [⟨0, 0, 0, 4, 0x0BBB⟩, ⟨1, 0, 0, 4, 0x0FFF⟩] 4 = 4 :=
  regfile_no_write_is_frame.2 (fun a => a)
    [⟨0, 0, 0, 4, 0x0BBB⟩, ⟨1, 0, 0, 4, 0x0FFF⟩] (by decide) 4

/-! ## Vector-driven run with abort at first mismatch (spec §4.4, §7) -/

/-- Modelled from the spec: `run_test(vectors, apply_fn, check_fn)`
(spec §4.4) — for each vector in order, apply the inputs and run the step
(folded into `step`), then check; at the first mismatch abort the whole
run, reporting the vector's index together with the expected and actual
values.  The result pairs the list of processed vector indices with the
optional failure report `(index, expected, actual)`; a `check` outcome of
`some (e, a)` means a mismatch with expected `e` and actual `a`. -/
def runVectors {σ α : Type} (step : σ → α → σ) (check : σ → α → Option (Nat × Nat)) :
    σ → List α → Nat → List Nat × Option (Nat × Nat × Nat)
  | _, [], _ => ([], none)
  | s, v :: rest, k =>
    match check (step s v) v with
    | some (e, a) => ([k], some (k, e, a))
    | none =>
      let r := runVectors step check (step s v) rest (k + 1)
      (k :: r.1, r.2)

theorem runVectors_none (σ α : Type) (step : σ → α → σ)
    (check : σ → α → Option (Nat × Nat)) :
    ∀ (vs : List α) (s : σ) (k : Nat) (tr : List Nat),
      runVectors step check s vs k = (tr, none) → tr = List.range' k vs.length := by
  intro vs
  induction vs with
  | nil =>
    intro s k tr h
    simp [runVectors] at h
    simp [h]
  | cons v rest ih =>
    intro s k tr h
    rw [runVectors] at h
    cases hch : check (step s v) v with
    | some p =>
      rw [hch] at h
      simp at h
    | none =>
      rw [hch] at h
      simp only [Prod.mk.injEq] at h
      obtain ⟨htr, hres⟩ := h
      have := ih (step s v) (k + 1) (runVectors step check (step s v) rest (k + 1)).1
        (by rw [← hres])
      rw [← htr, this]
      simp [List.range']

theorem runVectors_some (σ α : Type) (step : σ → α → σ)
    (check : σ → α → Option (Nat × Nat)) :
    ∀ (vs : List α) (s : σ) (k : Nat) (tr : List Nat) (i e a : Nat),
      runVectors step check s vs k = (tr, some (i, e, a)) →
      k ≤ i ∧ i - k < vs.length ∧ tr = List.range' k (i - k + 1) ∧
        (∃ vi, vs[i - k]? = some vi ∧
          check (step ((vs.take (i - k)).foldl step s) vi) vi = some (e, a)) ∧
        (∀ j, j < i - k → ∃ vj, vs[j]? = some vj ∧
          check (step ((vs.take j).foldl step s) vj) vj = none) := by
  intro vs
  induction vs with
  | nil =>
    intro s k tr i e a h
    simp [runVectors] at h
  | cons v rest ih =>
    intro s k tr i e a h
    rw [runVectors] at h
    cases hch : check (step s v) v with
    | some p =>
      rw [hch] at h
      simp only [Prod.mk.injEq, Option.some.injEq] at h
      obtain ⟨htr, hia⟩ := h
      obtain ⟨rfl, rfl, rfl⟩ := hia
      refine ⟨Nat.le_refl k, by simp, by simp [← htr, List.range'], ?_, ?_⟩
      · refine ⟨v, by simp, ?_⟩
        simpa using hch
      · intro j hj
        omega
    | none =>
      rw [hch] at h
      simp only [Prod.mk.injEq] at h
      obtain ⟨htr, hres⟩ := h
      obtain ⟨hki, hlen, htr2, ⟨vi, hvi, hchk⟩, hprev⟩ :=
        ih (step s v) (k + 1) (runVectors step check (step s v) rest (k + 1)).1 i e a
          (by rw [← hres])
      have hk : k + 1 ≤ i := hki
      refine ⟨by omega, by simp; omega, ?_, ?_, ?_⟩
      · rw [← htr, htr2]
        have : i - k + 1 = (i - (k + 1) + 1) + 1 := by omega
        rw [this]
        simp [List.range']
      · refine ⟨vi, ?_, ?_⟩
        · have : i - k = (i - (k + 1)) + 1 := by omega
          rw [this]
          simpa using hvi
        · have : i - k = (i - (k + 1)) + 1 := by omega
          rw [this]
          simpa using hchk
      · intro j hj
        cases j with
        | zero => exact ⟨v, by simp, by simpa using hch⟩
        | succ j0 =>
          obtain ⟨vj, hvj, hcj⟩ := hprev j0 (by omega)
          exact ⟨vj, by simpa using hvj, by simpa using hcj⟩

/-- C6: `run_test` processes the vectors in order; at the first vector
whose checked output mismatches it aborts the whole run reporting that
vector's index with the expected and actual values — every earlier vector
checked clean, the failing vector's check yields exactly the reported
expected/actual pair, and the processed-index trace stops at the failing
index so no later vector is processed; a run with no mismatch processes
every vector. -/
theorem run_test_aborts_at_first_mismatch :
    (∀ (σ α : Type) (step : σ → α → σ) (check : σ → α → Option (Nat × Nat))
        (s : σ) (vs : List α) (tr : List Nat) (i e a : Nat),
        runVectors step check s vs 0 = (tr, some (i, e, a)) →
        i < vs.length ∧ tr = List.range (i + 1) ∧
          (∃ vi, vs[i]? = some vi ∧
            check (step ((vs.take i).foldl step s) vi) vi = some (e, a)) ∧
          (∀ j, j < i → ∃ vj, vs[j]? = some vj ∧
            check (step ((vs.take j).foldl step s) vj) vj = none))
    ∧ (∀ (σ α : Type) (step : σ → α → σ) (check : σ → α → Option (Nat × Nat))
        (s : σ) (vs : List α) (tr : List Nat),
        runVectors step check s vs 0 = (tr, none) → tr = List.range vs.length) := by
  constructor
  · intro σ α step check s vs tr i e a h
    obtain ⟨-, hlen, htr, hfail, hprev⟩ := runVectors_some σ α step check vs s 0 tr i e a h
    rw [Nat.sub_zero] at hlen htr hfail
    refine ⟨hlen, ?_, hfail, fun j hj => hprev j (by omega)⟩
    rw [htr, List.range_eq_range']
  · intro σ α step check s vs tr h
    rw [runVectors_none σ α step check vs s 0 tr h, List.range_eq_range']

/-- C6 witness: accumulating steps 3, 4, 5 with a check that fails once the
accumulator reaches 10 aborts at index 2 reporting expected 9 and actual
12, after processing exactly indices 0, 1, 2. -/
theorem run_test_aborts_at_first_mismatch_witness :
    2 < ([3, 4, 5] : List Nat).length ∧ [0, 1, 2] = List.range (2 + 1) ∧
      (∃ vi, ([3, 4, 5] : List Nat)[2]? = some vi ∧
        (fun (s _v : Nat) => if 10 ≤ s then some (9, s) else none)
          ((fun s v => s + v) (((([3, 4, 5] : List Nat).take 2).foldl (fun s v => s + v) 0)) vi) vi
          = some (9, 12)) ∧
      (∀ j, j < 2 → ∃ vj, ([3, 4, 5] : List Nat)[j]? = some vj ∧
        (fun (s _v : Nat) => if 10 ≤ s then some (9, s) else none)
          ((fun s v => s + v) ((([3, 4, 5] : List Nat).take j).foldl (fun s v => s + v) 0) vj) vj
          = none) :=
  run_test_aborts_at_first_mismatch.1 Nat Nat (fun s v => s + v)
    (fun s _ => if 10 ≤ s then some (9, s) else none) 0 [3, 4, 5] [0, 1, 2] 2 9 12
    (by decide)

/-! ## Block graph and combinational-cycle rejection (spec §4.1, §7) -/

/-- Block-granularity dependency graph over `n` blocks (spec §4.1, cycle
detection: producer→consumer edges with bit ranges collapsed to block
identity).  `comb i = true` marks a combinational block, `comb i = false` a
Register; `edge a b` is a producer→consumer edge from block `a` to block
`b`. -/
structure BlockGraph (n : Nat) where
  comb : Fin n → Bool
  edge : Fin n → Fin n → Bool

/-- Edge of the combinational sub-graph: an edge both of whose endpoints
are combinational blocks, so a closed walk made of such edges is a cycle
composed entirely of combinational blocks. -/
def combEdgeB {n : Nat} (g : BlockGraph n) (a b : Fin n) : Bool :=
  g.edge a b && g.comb a && g.comb b

/-- One expansion step of the reachable set through combinational edges. -/
def stepSet {n : Nat} (g : BlockGraph n) (s : Finset (Fin n)) : Finset (Fin n) :=
  s ∪ Finset.univ.filter (fun b => ∃ a ∈ s, combEdgeB g a b = true)

/-- Iterated expansion of the reachable set. -/
def reachIter {n : Nat} (g : BlockGraph n) (s : Finset (Fin n)) : Nat → Finset (Fin n)
  | 0 => s
  | k + 1 => stepSet g (reachIter g s k)

/-- Direct combinational successors of a block. -/
def combSuccs {n : Nat} (g : BlockGraph n) (v : Fin n) : Finset (Fin n) :=
  Finset.univ.filter (fun b => combEdgeB g v b = true)

/-- Modelled from the spec: the builder's cycle detection over the block
graph (§4.1) — search for a block that reaches itself through a non-empty
chain of combinational edges, by iterating the successor expansion `n`
times from each block's combinational successors. -/
def hasCombCycle {n : Nat} (g : BlockGraph n) : Bool :=
  decide (∃ v, v ∈ reachIter g (combSuccs g v) n)

/-- Modelled from the spec: elaboration's graph building fails with
`CombinationalLoopError` when the block graph has a combinational-only
cycle, and succeeds otherwise (spec §4.1 cycle detection, §7). -/
def elaborateBlocks {n : Nat} (g : BlockGraph n) : Except BuildError Unit :=
  if hasCombCycle g then .error .CombinationalLoopError else .ok ()

theorem subset_stepSet {n : Nat} (g : BlockGraph n) (s : Finset (Fin n)) :
    s ⊆ stepSet g s :=
  Finset.subset_union_left

theorem reachIter_mono {n : Nat} (g : BlockGraph n) (s : Finset (Fin n)) :
    ∀ {k m : Nat}, k ≤ m → reachIter g s k ⊆ reachIter g s m := by
  intro k m hkm
  induction m with
  | zero =>
    have : k = 0 := Nat.le_zero.mp hkm
    subst this
    exact subset_rfl
  | succ m ih =>
    rcases Nat.lt_or_ge k (m + 1) with h | h
    · exact (ih (by omega)).trans (subset_stepSet g _)
    · have : k = m + 1 := by omega
      subst this
      exact subset_rfl

theorem reachIter_stab_forever {n : Nat} (g : BlockGraph n) (s : Finset (Fin n))
    (k : Nat) (hstab : reachIter g s (k + 1) = reachIter g s k) :
    ∀ m, k ≤ m → reachIter g s m = reachIter g s k := by
  intro m hkm
  induction m with
  | zero =>
    have : k = 0 := Nat.le_zero.mp hkm
    subst this
    rfl
  | succ m ih =>
    rcases Nat.lt_or_ge k (m + 1) with h | h
    · have hm := ih (by omega)
      show stepSet g (reachIter g s m) = _
      rw [hm]
      exact hstab
    · have : k = m + 1 := by omega
      subst this
      rfl

theorem reachIter_exists_stab {n : Nat} (g : BlockGraph n) (s : Finset (Fin n)) :
    ∃ k ≤ n, reachIter g s (k + 1) = reachIter g s k := by
  by_contra h
  push_neg at h
  have grow : ∀ k, k ≤ n + 1 → k ≤ (reachIter g s k).card := by
    intro k
    induction k with
    | zero => intro _; exact Nat.zero_le _
    | succ k ih =>
      intro hk
      have hne := h k (by omega)
      have hsub : reachIter g s k ⊆ reachIter g s (k + 1) := reachIter_mono g s (by omega)
      have hlt : (reachIter g s k).card < (reachIter g s (k + 1)).card :=
        Finset.card_lt_card (Finset.ssubset_iff_subset_ne.mpr ⟨hsub, fun he => hne he.symm⟩)
      have := ih (by omega)
      omega
  have h1 := grow (n + 1) (Nat.le_refl _)
  have h2 : (reachIter g s (n + 1)).card ≤ n := by
    have := Finset.card_le_univ (reachIter g s (n + 1))
    simpa using this
  omega

theorem reachIter_subset_last {n : Nat} (g : BlockGraph n) (s : Finset (Fin n))
    (m : Nat) : reachIter g s m ⊆ reachIter g s n := by
  obtain ⟨k, hk, hstab⟩ := reachIter_exists_stab g s
  rcases le_or_lt m n with h | h
  · exact reachIter_mono g s h
  · rw [reachIter_stab_forever g s k hstab m (by omega)]
    exact reachIter_mono g s hk

theorem mem_reachIter_step {n : Nat} (g : BlockGraph n) (s : Finset (Fin n))
    {k : Nat} {a w : Fin n} (ha : a ∈ reachIter g s k) (hw : combEdgeB g a w = true) :
    w ∈ reachIter g s (k + 1) := by
  show w ∈ stepSet g (reachIter g s k)
  unfold stepSet
  rw [Finset.mem_union, Finset.mem_filter]
  exact Or.inr ⟨Finset.mem_univ w, a, ha, hw⟩

theorem reachIter_adequate {n : Nat} (g : BlockGraph n) (s : Finset (Fin n))
    {u w : Fin n} (hpath : Relation.ReflTransGen (fun a b => combEdgeB g a b = true) u w)
    {k : Nat} (hu : u ∈ reachIter g s k) : ∃ m, w ∈ reachIter g s m := by
  induction hpath with
  | refl => exact ⟨k, hu⟩
  | tail _ hedge ih =>
    obtain ⟨m, hm⟩ := ih
    exact ⟨m + 1, mem_reachIter_step g s hm hedge⟩

theorem reachIter_sound {n : Nat} (g : BlockGraph n) (s : Finset (Fin n)) :
    ∀ (k : Nat) (w : Fin n), w ∈ reachIter g s k →
      ∃ u ∈ s, u = w ∨ Relation.TransGen (fun a b => combEdgeB g a b = true) u w := by
  intro k
  induction k with
  | zero => intro w hw; exact ⟨w, hw, Or.inl rfl⟩
  | succ k ih =>
    intro w hw
    unfold reachIter stepSet at hw
    rw [Finset.mem_union, Finset.mem_filter] at hw
    rcases hw with hw | ⟨-, a, ha, hedge⟩
    · exact ih w hw
    · obtain ⟨u, hu, hcase⟩ := ih a ha
      rcases hcase with rfl | htrans
      · exact ⟨u, hu, Or.inr (Relation.TransGen.single hedge)⟩
      · exact ⟨u, hu, Or.inr (htrans.tail hedge)⟩

/-- Adequacy and soundness of the iterated-expansion cycle search: the
algorithmic check finds a self-reaching block exactly when the block graph
has a non-empty closed chain of combinational edges. -/
theorem hasCombCycle_iff {n : Nat} (g : BlockGraph n) :
    hasCombCycle g = true ↔
      ∃ v, Relation.TransGen (fun a b => combEdgeB g a b = true) v v := by
  unfold hasCombCycle
  rw [decide_eq_true_eq]
  constructor
  · rintro ⟨v, hv⟩
    obtain ⟨u, hu, hcase⟩ := reachIter_sound g (combSuccs g v) n v hv
    have hvu : combEdgeB g v u = true := by
      unfold combSuccs at hu
      rw [Finset.mem_filter] at hu
      exact hu.2
    rcases hcase with heq | htrans
    · subst heq
      exact ⟨u, Relation.TransGen.single hvu⟩
    · exact ⟨v, Relation.TransGen.head hvu htrans⟩
  · rintro ⟨v, hv⟩
    rw [Relation.TransGen.head'_iff] at hv
    obtain ⟨u, hvu, hpath⟩ := hv
    have hu0 : u ∈ reachIter g (combSuccs g v) 0 := by
      show u ∈ combSuccs g v
      unfold combSuccs
      rw [Finset.mem_filter]
      exact ⟨Finset.mem_univ u, hvu⟩
    obtain ⟨m, hm⟩ := reachIter_adequate g (combSuccs g v) hpath hu0
    exact ⟨v, reachIter_subset_last g (combSuccs g v) m hm⟩

/-- Two-block graph with a mutual edge between a combinational block and a
Register: sequential feedback, legal (spec §4.1). -/
def regLoopGraph : BlockGraph 2 :=
  ⟨fun i => i = 0, fun a b => a ≠ b⟩

/-- Two-block graph with a mutual edge between two combinational blocks: a
purely combinational feedback loop (spec §4.1, §7). -/
def combLoopGraph : BlockGraph 2 :=
  ⟨fun _ => true, fun a b => a ≠ b⟩

/-- C3: graph building fails with `CombinationalLoopError` exactly when the
block-granularity producer→consumer graph has a cycle composed entirely of
combinational blocks (a non-empty closed chain of edges between
combinational blocks); the two-block purely combinational loop fails, and
the same loop through one Register elaborates successfully. -/
theorem combinational_loop_rejected_iff_comb_cycle :
    (∀ (n : Nat) (g : BlockGraph n),
        elaborateBlocks g = .error .CombinationalLoopError ↔
          ∃ v, Relation.TransGen (fun a b => combEdgeB g a b = true) v v)
    ∧ elaborateBlocks combLoopGraph = .error .CombinationalLoopError
    ∧ elaborateBlocks regLoopGraph = .ok () := by
  have hmain : ∀ (n : Nat) (g : BlockGraph n),
      elaborateBlocks g = .error .CombinationalLoopError ↔
        ∃ v, Relation.TransGen (fun a b => combEdgeB g a b = true) v v := by
    intro n g
    rw [← hasCombCycle_iff]
    unfold elaborateBlocks
    by_cases h : hasCombCycle g <;> simp [h]
  refine ⟨hmain, ?_, ?_⟩
  · rw [hmain]
    refine ⟨0, Relation.TransGen.head (b := 1) (by decide) (Relation.TransGen.single (by decide))⟩
  · unfold elaborateBlocks
    have : hasCombCycle regLoopGraph = false := by decide
    rw [this]
    rfl

/-! ## Combinational scheduler determinism (spec §4.2, §5, §8) -/

/-- Global signal storage: the current value of every signal id
(spec §3). -/
abbrev SigState := Nat → Nat

/-- Combinational block as compiled into the dependency graph: a declared
sensitivity (read) set, a declared output (write) set, and the body acting
on the signal state (spec §3, Combinational Block). -/
structure CBlock where
  reads : Finset Nat
  writes : Finset Nat
  act : SigState → SigState

/-- Well-formed block: the body writes only its declared output set, and
what it writes depends only on its declared sensitivity set (spec §3: the
body is a pure function reading the sensitivity set and writing a disjoint
output set). -/
structure CBlock.WF (b : CBlock) : Prop where
  frame : ∀ s x, x ∉ b.writes → b.act s x = s x
  dep : ∀ s t, (∀ y ∈ b.reads, s y = t y) → ∀ x ∈ b.writes, b.act s x = b.act t x

/-- Data-independence of two blocks: disjoint outputs, and neither reads
what the other writes. -/
def Indep (b c : CBlock) : Prop :=
  b.writes ∩ c.writes = ∅ ∧ b.writes ∩ c.reads = ∅ ∧ c.writes ∩ b.reads = ∅

theorem indep_act_comm (b c : CBlock) (hb : b.WF) (hc : c.WF) (h : Indep b c)
    (s : SigState) : b.act (c.act s) = c.act (b.act s) := by
  obtain ⟨hww, hwr, hcw⟩ := h
  funext x
  by_cases hxb : x ∈ b.writes
  · have hxc : x ∉ c.writes := fun hx =>
      (Finset.eq_empty_iff_forall_not_mem.mp hww x) (Finset.mem_inter.mpr ⟨hxb, hx⟩)
    rw [hc.frame (b.act s) x hxc]
    exact hb.dep (c.act s) s
      (fun y hy => hc.frame s y (fun hyc =>
        (Finset.eq_empty_iff_forall_not_mem.mp hcw y) (Finset.mem_inter.mpr ⟨hyc, hy⟩)))
      x hxb
  · by_cases hxc : x ∈ c.writes
    · rw [hb.frame (c.act s) x hxb]
      exact (hc.dep (b.act s) s
        (fun y hy => hb.frame s y (fun hyb =>
          (Finset.eq_empty_iff_forall_not_mem.mp hwr y) (Finset.mem_inter.mpr ⟨hyb, hy⟩)))
        x hxc).symm
    · rw [hb.frame (c.act s) x hxb, hc.frame s x hxc, hc.frame (b.act s) x hxc,
        hb.frame s x hxb]

/-- Evaluation of a static schedule: run the blocks' bodies in list order
over the signal state (spec §4.1 output: a topological order over
combinational blocks; §4.2: a single topological pass). -/
def runBlocks {ι : Type} (blocks : ι → CBlock) (order : List ι) (s : SigState) : SigState :=
  order.foldl (fun st i => (blocks i).act st) s

theorem runBlocks_cons {ι : Type} (blocks : ι → CBlock) (a : ι) (l : List ι)
    (s : SigState) : runBlocks blocks (a :: l) s = runBlocks blocks l ((blocks a).act s) :=
  rfl

theorem runBlocks_append {ι : Type} (blocks : ι → CBlock) (l1 l2 : List ι)
    (s : SigState) :
    runBlocks blocks (l1 ++ l2) s = runBlocks blocks l2 (runBlocks blocks l1 s) :=
  List.foldl_append _ _ _ _

theorem act_runBlocks_comm {ι : Type} (blocks : ι → CBlock) (a : ι) (p : List ι)
    (hcomm : ∀ b ∈ p, ∀ s, (blocks a).act ((blocks b).act s) =
      (blocks b).act ((blocks a).act s)) :
    ∀ s, (blocks a).act (runBlocks blocks p s) = runBlocks blocks p ((blocks a).act s) := by
  induction p with
  | nil => intro s; rfl
  | cons b p' ih =>
    intro s
    rw [runBlocks_cons, runBlocks_cons,
      ih (fun c hc s2 => hcomm c (List.mem_cons_of_mem b hc) s2) ((blocks b).act s),
      hcomm b (List.mem_cons_self b p') s]

theorem runBlocks_bubble {ι : Type} (blocks : ι → CBlock) (a : ι) (p q : List ι)
    (hcomm : ∀ b ∈ p, ∀ s, (blocks a).act ((blocks b).act s) =
      (blocks b).act ((blocks a).act s)) (s : SigState) :
    runBlocks blocks (p ++ a :: q) s = runBlocks blocks (a :: (p ++ q)) s := by
  rw [runBlocks_append, runBlocks_cons, runBlocks_cons, runBlocks_append,
    ← act_runBlocks_comm blocks a p hcomm s]

/-- Core order-invariance: two linearizations of the block set that both
respect the dependency edges evaluate to the same settled state.  `E` is
the producer→consumer edge relation of the compiled dependency graph;
`hE` states that the graph covers every data dependence (spec §4.1: the
fan-out index / block graph records producer→consumer block edges), and a
schedule is topological when no edge points backwards in it. -/
theorem runBlocks_topo_invariant {ι : Type} (blocks : ι → CBlock) (E : ι → ι → Prop)
    (hWF : ∀ i, (blocks i).WF)
    (hE : ∀ i j, i ≠ j → ¬ Indep (blocks i) (blocks j) → E i j ∨ E j i) :
    ∀ (N : Nat) (l1 l2 : List ι), l1.length ≤ N → l1.Perm l2 →
      l1.Pairwise (fun i j => ¬ E j i) → l2.Pairwise (fun i j => ¬ E j i) →
      ∀ s, runBlocks blocks l1 s = runBlocks blocks l2 s := by
  intro N
  induction N with
  | zero =>
    intro l1 l2 hlen hperm _ _ s
    have h1 : l1 = [] := List.eq_nil_of_length_eq_zero (Nat.le_zero.mp hlen)
    subst h1
    have h2 : l2 = [] := hperm.symm.eq_nil
    subst h2
    rfl
  | succ N ih =>
    intro l1 l2 hlen hperm h1 h2 s
    cases l1 with
    | nil =>
      have h2n : l2 = [] := hperm.symm.eq_nil
      subst h2n
      rfl
    | cons a t1 =>
      have ha2 : a ∈ l2 := hperm.subset (List.mem_cons_self a t1)
      obtain ⟨p, q, hpq⟩ := List.append_of_mem ha2
      subst hpq
      have hcomm : ∀ b ∈ p, ∀ s2, (blocks a).act ((blocks b).act s2) =
          (blocks b).act ((blocks a).act s2) := by
        intro b hb s2
        by_cases hba : b = a
        · subst hba
          rfl
        · by_cases hind : Indep (blocks a) (blocks b)
          · exact indep_act_comm (blocks a) (blocks b) (hWF a) (hWF b) hind s2
          · exfalso
            rcases hE a b (fun h => hba h.symm) hind with hEab | hEba
            · have hpair := (List.pairwise_append.mp h2).2.2 b hb a (List.mem_cons_self a q)
              exact hpair hEab
            · have hbt1 : b ∈ t1 := by
                have hbl1 : b ∈ a :: t1 := hperm.symm.subset
                  (List.mem_append_left _ hb)
                rcases List.mem_cons.mp hbl1 with h | h
                · exact absurd h hba
                · exact h
              have hpair := (List.pairwise_cons.mp h1).1 b hbt1
              exact hpair hEba
      rw [runBlocks_bubble blocks a p q hcomm s, runBlocks_cons, runBlocks_cons]
      have hperm2 : t1.Perm (p ++ q) := by
        have hmid : (p ++ a :: q).Perm (a :: (p ++ q)) := List.perm_middle
        exact (hperm.trans hmid).cons_inv
      refine ih t1 (p ++ q) ?_ hperm2 ((List.pairwise_cons.mp h1).2) ?_ ((blocks a).act s)
      · have := hlen
        simp only [List.length_cons] at this
        omega
      · refine List.Pairwise.sublist ?_ h2
        exact List.Sublist.append (List.Sublist.refl p) (List.sublist_cons_self a q)

/-- Modelled from the spec: write a step's input assignment into the
top-level input signals (spec §4.4 `run_step`; each pair `(sig, val)` sets
one input signal, unspecified signals retain their prior value). -/
def applyInputs (ins : List (Nat × Nat)) (s : SigState) : SigState :=
  ins.foldl (fun st p => fun x => if x = p.1 then p.2 else st x) s

/-- Modelled from the spec: the vector-driven simulator's step sequence
(spec §4.4) — per input vector, apply the inputs, settle the combinational
state by one pass over the static schedule, and snapshot the settled
state. -/
def simSteps {ι : Type} (blocks : ι → CBlock) (order : List ι) (s : SigState) :
    List (List (Nat × Nat)) → List SigState
  | [] => []
  | ins :: rest =>
    let s2 := runBlocks blocks order (applyInputs ins s)
    s2 :: simSteps blocks order s2 rest

/-- C2: two runs of the same input-vector sequence against the same
compiled model produce identical state snapshots at every step — the
settled result does not depend on the evaluation-order choice beyond the
static topological order, because any two schedules that are permutations
of the same block set and both respect the dependency edges settle to the
same state. -/
theorem same_sequence_same_snapshots :
    ∀ {ι : Type} (blocks : ι → CBlock) (E : ι → ι → Prop),
      (∀ i, (blocks i).WF) →
      (∀ i j, i ≠ j → ¬ Indep (blocks i) (blocks j) → E i j ∨ E j i) →
      ∀ o1 o2 : List ι, o1.Perm o2 →
        o1.Pairwise (fun i j => ¬ E j i) → o2.Pairwise (fun i j => ¬ E j i) →
        ∀ (s : SigState) (inputs : List (List (Nat × Nat))),
          simSteps blocks o1 s inputs = simSteps blocks o2 s inputs := by
  intro ι blocks E hWF hE o1 o2 hperm hp1 hp2 s inputs
  induction inputs generalizing s with
  | nil => rfl
  | cons ins rest ih =>
    have hstep : runBlocks blocks o1 (applyInputs ins s) =
        runBlocks blocks o2 (applyInputs ins s) :=
      runBlocks_topo_invariant blocks E hWF hE o1.length o1 o2 (Nat.le_refl _)
        hperm hp1 hp2 _
    show runBlocks blocks o1 (applyInputs ins s) :: _ =
      runBlocks blocks o2 (applyInputs ins s) :: _
    rw [hstep]
    exact congrArg _ (ih (runBlocks blocks o2 (applyInputs ins s)))

/-- Two independent constant-writer blocks used to exercise the
order-invariance theorem on a concrete compiled model. -/
def demoBlocks : Fin 2 → CBlock
  | ⟨0, _⟩ => ⟨∅, {0}, fun s x => if x = 0 then 7 else s x⟩
  | ⟨1, _⟩ => ⟨∅, {1}, fun s x => if x = 1 then 9 else s x⟩

theorem demoBlocks_wf : ∀ i, (demoBlocks i).WF := by
  intro i
  match i with
  | ⟨0, _⟩ =>
    constructor
    · intro s x hx
      have hne : x ≠ 0 := by simpa [demoBlocks] using hx
      simp [demoBlocks, hne]
    · intro s t _ x hx
      have hx0 : x = 0 := by simpa [demoBlocks] using hx
      simp [demoBlocks, hx0]
  | ⟨1, _⟩ =>
    constructor
    · intro s x hx
      have hne : x ≠ 1 := by simpa [demoBlocks] using hx
      simp [demoBlocks, hne]
    · intro s t _ x hx
      have hx1 : x = 1 := by simpa [demoBlocks] using hx
      simp [demoBlocks, hx1]

theorem demoBlocks_edges : ∀ i j : Fin 2, i ≠ j →
    ¬ Indep (demoBlocks i) (demoBlocks j) →
    (fun _ _ => False) i j ∨ (fun _ _ => False) j i := by
  intro i j hij hind
  exfalso
  apply hind
  fin_cases i <;> fin_cases j <;>
    first
      | exact absurd rfl hij
      | exact ⟨by decide, by decide, by decide⟩

/-- C2 witness: the two topological schedules `[0, 1]` and `[1, 0]` of the
two independent demo blocks produce identical snapshots on a concrete
input sequence. -/
theorem same_sequence_same_snapshots_witness :
    simSteps demoBlocks [0, 1] (fun _ => 0) [[(2, 3)]] =
      simSteps demoBlocks [1, 0] (fun _ => 0) [[(2, 3)]] :=
  same_sequence_same_snapshots demoBlocks (fun _ _ => False) demoBlocks_wf
    demoBlocks_edges [0, 1] [1, 0] (by decide)
    (by simp [List.pairwise_cons]) (by simp [List.pairwise_cons])
    (fun _ => 0) [[(2, 3)]]

/-! ## Pipelined load with hazards and delayed memory (spec §4.4, §7, §8;
`new_dpproc/parcv1_lw.py`) -/

/-- Instructions of the pipelined load scenario: the `parcv1_lw.py` test
programs use `la` (load address into a register), `nop`, `lw` (load word
from memory) and `mtc0` (move a register to the observed output). -/
inductive Instr where
  | la : Nat → Nat → Instr
  | nop : Instr
  | lw : Nat → Nat → Nat → Instr
  | mtc0 : Nat → Instr
deriving DecidableEq, Repr

/-- Pipeline machine state: program counter, architectural registers,
in-flight register writes `(ready cycle, destination, value)`, the
observed output (with `none` the explicit unresolved marker of spec §7,
distinct from any concrete value), and the current cycle. -/
structure PState where
  pc : Nat
  regs : Nat → Nat
  inflight : List (Nat × Nat × Nat)
  cp0out : Option Nat
  cycle : Nat

/-- Source registers an instruction reads. -/
def Instr.srcRegs : Instr → List Nat
  | .la _ _ => []
  | .nop => []
  | .lw _ rs _ => [rs]
  | .mtc0 rs => [rs]

/-- Whether some in-flight write targets register `r`. -/
def regPending (infl : List (Nat × Nat × Nat)) (r : Nat) : Bool :=
  infl.any (fun e => e.2.1 == r)

/-- Commit every in-flight write whose ready cycle has arrived. -/
def retireWrites (cycle : Nat) (infl : List (Nat × Nat × Nat)) (regs : Nat → Nat) :
    List (Nat × Nat × Nat) × (Nat → Nat) :=
  (infl.filter (fun e => decide (cycle < e.1)),
   fun r =>
     match infl.find? (fun e => decide (e.1 ≤ cycle) && e.2.1 == r) with
     | some e => e.2.2
     | none => regs r)

/-- Instruction at the program counter; past the end the machine idles. -/
def fetchInstr (prog : List Instr) (pc : Nat) : Instr :=
  prog.getD pc .nop

/-- Modelled from the spec: one cycle of the pipelined producer/consumer
scenario (spec §8, "pipelined load with hazard"): retire in-flight
register writes whose latency has elapsed, then either stall the
instruction at the program counter when one of its sources is still
pending (the hazard interlock), or issue it.  `la` produces its register
`laLat` cycles later (the producer in stage N visible 1..4 steps later);
`lw` produces its register `1 + memDelay` cycles later, `memDelay` being
the external memory collaborator's configurable resolution delay
(spec §4.4); `mtc0` resolves the observed output. -/
def procStep (mem : Nat → Nat) (memDelay laLat : Nat) (prog : List Instr)
    (st : PState) : PState :=
  let ri := retireWrites st.cycle st.inflight st.regs
  let infl2 := ri.1
  let regs2 := ri.2
  let ins := fetchInstr prog st.pc
  if ins.srcRegs.any (fun r => regPending infl2 r) then
    { st with
      regs := regs2,
      inflight := infl2,
      cycle := st.cycle + 1 }
  else
    match ins with
    | .la rd addr =>
      { st with
        regs := regs2,
        inflight := infl2 ++ [(st.cycle + laLat, rd, addr)],
        pc := st.pc + 1,
        cycle := st.cycle + 1 }
    | .nop =>
      { st with
        regs := regs2,
        inflight := infl2,
        pc := st.pc + 1,
        cycle := st.cycle + 1 }
    | .lw rd rs ofs =>
      { st with
        regs := regs2,
        inflight := infl2 ++ [(st.cycle + 1 + memDelay, rd, mem (regs2 rs + ofs))],
        pc := st.pc + 1,
        cycle := st.cycle + 1 }
    | .mtc0 rs =>
      { st with
        regs := regs2,
        inflight := infl2,
        cp0out := some (regs2 rs),
        pc := st.pc + 1,
        cycle := st.cycle + 1 }

/-- Run the machine for `fuel` cycles. -/
def procRun (mem : Nat → Nat) (memDelay laLat : Nat) (prog : List Instr) :
    Nat → PState → PState
  | 0, st => st
  | fuel + 1, st => procRun mem memDelay laLat prog fuel (procStep mem memDelay laLat prog st)

/-- Initial machine state: zeroed registers, empty pipeline, unresolved
output. -/
def procInit : PState :=
  ⟨0, fun _ => 0, [], none, 0⟩

/-- Memory image of the `lw` tests: `tdata_0` (here address 100) holds
`0xffff0000`; the image itself is an opaque address→word mapping
(spec §6). -/
def memLW : Nat → Nat :=
  fun a => if a = 100 then 0xffff0000 else 0

/-- Program of the `lw` hazard tests with `gap` intervening `nop`s between
the producer `la $2, tdata_0` and the consumer `lw $3, 0($2)`; `gap = 3`
is `lw_no_hazards`, `gap = 2` `lw_hazard_W`, `gap = 1` `lw_hazard_M`,
`gap = 0` `lw_hazard_X` in `parcv1_lw.py`; the loaded word is then moved
to the observed output by `mtc0 $3, $1`. -/
def progGap (gap : Nat) : List Instr :=
  [.la 2 100] ++ List.replicate gap .nop ++ [.lw 3 2 0, .mtc0 3]

/-- Modelled from the spec: the harness check of an output that may still
be unresolved (spec §4.4, §7 "Unsettled-output"): an unresolved output is
not an error (the field is simply not checked yet), a resolved output is
compared against the expected value. -/
def checkOutput (o : Option Nat) (expected : Nat) : Bool :=
  match o with
  | none => true
  | some v => v == expected

/-- C7: every hazard-distance variant of the pipelined load scenario — 0,
1, 2 or 3 intervening steps between producer and consumer, the four
`parcv1_lw.py` directed tests — settles to the identical final expected
value `0xffff0000`. -/
theorem hazard_variants_settle_identically :
    (procRun memLW 0 3 (progGap 3) 40 procInit).cp0out = some 0xffff0000
    ∧ (procRun memLW 0 3 (progGap 2) 40 procInit).cp0out = some 0xffff0000
    ∧ (procRun memLW 0 3 (progGap 1) 40 procInit).cp0out = some 0xffff0000
    ∧ (procRun memLW 0 3 (progGap 0) 40 procInit).cp0out = some 0xffff0000 := by
  exact ⟨by decide, by decide, by decide, by decide⟩

/-- C8: with the external memory collaborator delaying resolution by 5
steps, the not-yet-produced output is the explicit unresolved marker
(`none`), distinct from the concrete value zero; the checker never treats
it as an error; and the delayed run settles to the same final result as
the zero-delay run. -/
theorem delayed_memory_unresolved_not_zero :
    (procRun memLW 5 3 (progGap 3) 7 procInit).cp0out = none
    ∧ (procRun memLW 0 3 (progGap 3) 7 procInit).cp0out = some 0xffff0000
    ∧ (procRun memLW 5 3 (progGap 3) 7 procInit).cp0out ≠ some 0
    ∧ (∀ e, checkOutput none e = true)
    ∧ checkOutput (procRun memLW 5 3 (progGap 3) 7 procInit).cp0out 0xffff0000 = true
    ∧ (procRun memLW 5 3 (progGap 3) 40 procInit).cp0out
        = (procRun memLW 0 3 (progGap 3) 40 procInit).cp0out
    ∧ (procRun memLW 0 3 (progGap 3) 40 procInit).cp0out = some 0xffff0000 := by
  refine ⟨by decide, by decide, by decide, fun e => rfl, by decide, by decide, by decide⟩

end PyMtl
